import Mathlib

set_option linter.unusedSectionVars false
set_option linter.unusedVariables false

/-!
Verification of the remedian streaming-median estimator (src/lib.rs).

The single component `RemedianBlock<T>` is embedded shallowly:

* `usize` and `u64` fields are modelled as `Nat` (the algorithm locks after
  `base ^ exponent` ingestions, so within the `u64` range of any realizable
  stream the machine arithmetic is exact);
* `Vec<Vec<T>>` is `List (List α)`;
* the payload type `T : PartialOrd + Clone` is instantiated at a linearly
  ordered type `α`; on such a payload the comparator
  `a.partial_cmp(b).unwrap_or(Equal)` used by the code is the total
  comparison, and `Vec::sort_by` (a stable sort) computes the same list as
  any stable sort, here `List.insertionSort` with the ≤ relation;
* fallible `Vec` indexing (which panics out of bounds in Rust) is modelled
  with `Option`: a `none` result of `add_sample_point` or `median` marks a
  panic, `some` carries the value produced by the Rust function;
* the diagnostic `eprintln!` for an even base in `RemedianBlock::new` is
  I/O only and touches no state, so it has no counterpart in the model.
-/

/-- Shallow embedding of the struct `RemedianBlock<T>` (src/lib.rs lines 14-36). -/
structure RemedianBlock (α : Type) where
  remedian_base : Nat
  remedian_exponent : Nat
  count : Nat
  remedian_scratch : List (List α)
  locked : Bool
deriving DecidableEq

namespace RemedianBlock

variable {α : Type} [LinearOrder α]

/-- Embedding of `RemedianBlock::new` (lines 56-83): `exponent` empty batches,
count 0, unlocked. The capacity reservations and the even-base diagnostic
print do not affect the abstract state. -/
def new (remedian_base remedian_exponent : Nat) : RemedianBlock α :=
  { remedian_base := remedian_base
    remedian_exponent := remedian_exponent
    count := 0
    remedian_scratch := List.replicate remedian_exponent []
    locked := false }

/-- Embedding of `Vec::sort_by` with the comparator
`a.partial_cmp(b).unwrap_or(Ordering::Equal)` (lines 118 and 124): on a
linearly ordered payload this comparator is the total comparison and the
output of the stable sort is the unique stable ≤-sort of the batch, which
`List.insertionSort` with ≤ computes. -/
def sortBatch (l : List α) : List α :=
  List.insertionSort (fun a b => a ≤ b) l

/-- Embedding of the ripple-carry `for i in 0..remedian_exponent` loop of
`add_sample_point` (lines 108-134). `fuel` is the number of remaining loop
iterations, `exponent - i`, making the recursion structural. A `none` result
models an out-of-bounds `Vec` index (a Rust panic); the `Bool` in the result
is the `locked` flag after the loop (the loop only ever sets it to `true`). -/
def rippleCarry (base exponent : Nat) : Nat → Nat → List (List α) → Option (List (List α) × Bool)
  | 0, _, scratch => some (scratch, false)
  | fuel + 1, i, scratch =>
    match scratch[i]? with
    | none => none
    | some batch =>
      if batch.length = base then
        if i = exponent - 1 then
          some (scratch.set i (sortBatch batch), true)
        else
          match (sortBatch batch)[base / 2]? with
          | none => none
          | some intermediate_median =>
            let s1 := scratch.set i []
            match s1[i + 1]? with
            | none => none
            | some nextBatch =>
              rippleCarry base exponent fuel (i + 1)
                (s1.set (i + 1) (nextBatch ++ [intermediate_median]))
      else some (scratch, false)

/-- Embedding of `add_sample_point` (lines 101-140). Returns
`some (accepted, newState)`, or `none` for an out-of-bounds index panic
(which happens on the very first call when `remedian_exponent = 0`, since
`self.remedian_scratch[0]` is indexed unconditionally when unlocked). -/
def add_sample_point (s : RemedianBlock α) (v : α) : Option (Bool × RemedianBlock α) :=
  if s.locked then some (false, s)
  else
    match s.remedian_scratch[0]? with
    | none => none
    | some b0 =>
      match rippleCarry s.remedian_base s.remedian_exponent s.remedian_exponent 0
          (s.remedian_scratch.set 0 (b0 ++ [v])) with
      | none => none
      | some (scratch2, lk) =>
        some (true, { s with
          count := s.count + 1
          remedian_scratch := scratch2
          locked := lk })

/-- The `(value, weight)` pairs collected by the enumerate loop of `median`
(lines 155-160): every value held at level `i` is paired with weight
`base ^ i`, level by level, in order. The parameter `k` is the index of the
first level of the remaining list. -/
def weightedValues (base : Nat) : Nat → List (List α) → List (α × Nat)
  | _, [] => []
  | k, b :: rest => (b.map (fun m => (m, base ^ k))) ++ weightedValues base (k + 1) rest

/-- Total weight held in the scratch matrix from level `k` on: the sum of
batch length times `base ^ level`. -/
def weightSum (base : Nat) : Nat → List (List α) → Nat
  | _, [] => 0
  | k, b :: rest => b.length * base ^ k + weightSum base (k + 1) rest

/-- Embedding of the sort of the weighted pairs by value (line 162), with the
same stable-sort reading as `sortBatch`. -/
def sortPairs (l : List (α × Nat)) : List (α × Nat) :=
  List.insertionSort (fun a b => a.1 ≤ b.1) l

/-- Embedding of the accumulation loop of `median` (lines 164-170):
`acc` is `running_weight`; the first pair taking the running weight to
`target` or beyond is returned. -/
def walkWeights (target : Nat) : Nat → List (α × Nat) → Option α
  | _, [] => none
  | acc, (m, w) :: rest =>
    if target ≤ acc + w then some m else walkWeights target (acc + w) rest

/-- Embedding of `median` (lines 147-176). The outer `Option` models the
indexing panic of the locked branch (never hit from a validly constructed
block); the inner `Option` is the `Option<T>` the Rust function returns. -/
def median (s : RemedianBlock α) : Option (Option α) :=
  if s.locked then
    match s.remedian_scratch[s.remedian_exponent - 1]? with
    | none => none
    | some lastBatch =>
      match lastBatch[s.remedian_base / 2]? with
      | none => none
      | some m => some (some m)
  else
    some (walkWeights (s.count / 2) 0
      (sortPairs (weightedValues s.remedian_base 0 s.remedian_scratch)))

/-- Embedding of `median_or_default` (lines 185-187); the `T : Default` bound
is modelled by `Inhabited`. -/
def median_or_default [Inhabited α] (s : RemedianBlock α) : Option α :=
  (median s).map (fun o => o.getD default)

/-- Feeding a list of sample points one at a time, propagating a panic. -/
def feed (s : RemedianBlock α) : List α → Option (RemedianBlock α)
  | [] => some s
  | v :: vs =>
    match add_sample_point s v with
    | none => none
    | some (_, s1) => feed s1 vs

/-- Running weight sums of a weighted list, starting from `acc`: entry `j`
is the total weight of the first `j + 1` pairs plus `acc`. -/
def runningSums (acc : Nat) : List (α × Nat) → List Nat
  | [] => []
  | (_, w) :: rest => (acc + w) :: runningSums (acc + w) rest

/-- The weighted-median algorithm exactly as the specification states it,
for comparison with the `median` embedding: pair every value at level `i`
with weight `base ^ i`, sort the pairs by value, and return the first value
at which the running weight sum reaches or exceeds `count / 2` under integer
division. -/
def weightedMedianSpec (base count : Nat) (scratch : List (List α)) : Option α :=
  let sorted := sortPairs (weightedValues base 0 scratch)
  ((sorted.zip (runningSums 0 sorted)).find? (fun q => decide (count / 2 ≤ q.2))).map
    (fun q => q.1.1)

end RemedianBlock

open RemedianBlock

/-- States of a block constructed as `RemedianBlock::new base exponent` and
then mutated by an arbitrary sequence of successful `add_sample_point` calls.
`median`, `locked`, `count` and `median_or_default` take `&self` and cannot
mutate, so interleaving them does not enlarge the set of states. -/
inductive ReachableBlock {α : Type} [LinearOrder α] (base exponent : Nat) :
    RemedianBlock α → Prop where
  | new : ReachableBlock base exponent (RemedianBlock.new base exponent)
  | add {s s' : RemedianBlock α} {v : α} {b : Bool}
      (hs : ReachableBlock base exponent s)
      (hstep : add_sample_point s v = some (b, s')) :
      ReachableBlock base exponent s'

/-- The state invariant maintained by every reachable block (for a valid
construction, `1 ≤ base` and `1 ≤ exponent`): the parameters are those of
the constructor, the scratch matrix has `exponent` levels; while unlocked
every level holds strictly fewer than `base` values and the total held
weight equals `count`; once locked all levels below the last are empty, the
last level is a sorted batch of exactly `base` values, and `count` is the
full capacity `base ^ exponent`. -/
def BlockInv {α : Type} [LinearOrder α] (base exponent : Nat) (s : RemedianBlock α) : Prop :=
  s.remedian_base = base ∧
  s.remedian_exponent = exponent ∧
  s.remedian_scratch.length = exponent ∧
  (s.locked = false →
    (∀ (j : Nat) (b : List α), s.remedian_scratch[j]? = some b → b.length < base) ∧
    weightSum base 0 s.remedian_scratch = s.count) ∧
  (s.locked = true →
    (∀ (j : Nat) (b : List α), j < exponent - 1 → s.remedian_scratch[j]? = some b → b = []) ∧
    (∃ lb, s.remedian_scratch[exponent - 1]? = some lb ∧ lb.length = base ∧
      List.Sorted (fun a b => a ≤ b) lb) ∧
    s.count = base ^ exponent)

/-- The 15-value dataset of the concrete test scenario, written with the
exact decimal literals of the specification. -/
def c8data : List ℚ :=
  [18.6, 83.1, 21.5, 21.4, 63.4, 64.1, 4.6, 92.7, 31.1, 94.8, 2.4, 44.5, 70.0, 17.1, 61.0]

/-- The same 15 values written as explicit normalized fractions. The rational
arithmetic behind decimal literals is irreducible in the kernel, so concrete
runs are evaluated on this form; the lemma below proves the two lists equal. -/
def c8dataExplicit : List ℚ :=
  [⟨93, 5, by decide, by decide⟩, ⟨831, 10, by decide, by decide⟩,
    ⟨43, 2, by decide, by decide⟩, ⟨107, 5, by decide, by decide⟩,
    ⟨317, 5, by decide, by decide⟩, ⟨641, 10, by decide, by decide⟩,
    ⟨23, 5, by decide, by decide⟩, ⟨927, 10, by decide, by decide⟩,
    ⟨311, 10, by decide, by decide⟩, ⟨474, 5, by decide, by decide⟩,
    ⟨12, 5, by decide, by decide⟩, ⟨89, 2, by decide, by decide⟩,
    ⟨70, 1, by decide, by decide⟩, ⟨171, 10, by decide, by decide⟩,
    ⟨61, 1, by decide, by decide⟩]

section Lemmas

variable {α : Type} [LinearOrder α]

/-- Replacing one batch changes the total weight by the weight difference of
the two batches (stated additively, avoiding Nat subtraction). -/
lemma weightSum_set (base : Nat) :
    ∀ (L : List (List α)) (k j : Nat) (b c : List α), L[j]? = some b →
      weightSum base k (L.set j c) + b.length * base ^ (k + j)
        = weightSum base k L + c.length * base ^ (k + j) := by
  intro L
  induction L with
  | nil => intro k j b c h; simp at h
  | cons hd tl ih =>
    intro k j b c h
    cases j with
    | zero =>
      simp only [List.getElem?_cons_zero, Option.some.injEq] at h
      subst h
      simp only [List.set_cons_zero, weightSum, Nat.add_zero]
      ring
    | succ j =>
      simp only [List.getElem?_cons_succ] at h
      have h2 := ih (k + 1) j b c h
      simp only [List.set_cons_succ, weightSum]
      have hexp : k + (j + 1) = (k + 1) + j := by omega
      rw [hexp]
      linarith [h2]

/-- If every batch holds strictly fewer than `base` values, the total held
weight from level `k` on stays below `base ^ (k + number of levels)`. -/
lemma weightSum_lt (base : Nat) (hb : 1 ≤ base) :
    ∀ (L : List (List α)) (k : Nat),
      (∀ (j : Nat) (b : List α), L[j]? = some b → b.length < base) →
      weightSum base k L + base ^ k ≤ base ^ (k + L.length) := by
  intro L
  induction L with
  | nil => intro k h; simp [weightSum]
  | cons hd tl ih =>
    intro k h
    have h0 : hd.length < base := h 0 hd (by simp)
    have htl : ∀ (j : Nat) (b : List α), tl[j]? = some b → b.length < base := by
      intro j b hj
      exact h (j + 1) b (by simpa using hj)
    have h2 := ih (k + 1) htl
    simp only [weightSum, List.length_cons]
    have hexp : k + (tl.length + 1) = (k + 1) + tl.length := by omega
    rw [hexp]
    have h1 : hd.length * base ^ k + base ^ k ≤ base ^ (k + 1) := by
      calc hd.length * base ^ k + base ^ k = (hd.length + 1) * base ^ k := by ring
        _ ≤ base * base ^ k := Nat.mul_le_mul_right _ h0
        _ = base ^ (k + 1) := by ring
    linarith [h1, h2]

/-- A scratch matrix of empty batches holds weight zero. -/
lemma weightSum_replicate (base : Nat) :
    ∀ (n k : Nat), weightSum base k (List.replicate n ([] : List α)) = 0 := by
  intro n
  induction n with
  | zero => intro k; simp [weightSum]
  | succ n ih => intro k; simp [List.replicate_succ, weightSum, ih]

/-- The total weight of the locked shape: all levels below the last empty
and the last of length `base` amounts to exactly `base ^ (k + levels)`. -/
lemma weightSum_shape (base : Nat) :
    ∀ (L : List (List α)) (k : Nat), 1 ≤ L.length →
      (∀ (j : Nat) (b : List α), j < L.length - 1 → L[j]? = some b → b = []) →
      (∀ lb : List α, L[L.length - 1]? = some lb → lb.length = base) →
      weightSum base k L = base ^ (k + L.length) := by
  intro L
  induction L with
  | nil => intro k h; simp at h
  | cons hd tl ih =>
    intro k _ hemp hlast
    cases tl with
    | nil =>
      have hl : hd.length = base := hlast hd (by simp)
      simp only [weightSum, hl, List.length_cons, List.length_nil]
      ring
    | cons h2 t2 =>
      have hne : 1 ≤ (h2 :: t2).length := by simp
      have h0 : hd = [] := hemp 0 hd (by simp) (by simp)
      have hemp2 : ∀ (j : Nat) (b : List α), j < (h2 :: t2).length - 1 →
          (h2 :: t2)[j]? = some b → b = [] := by
        intro j b hj hget
        refine hemp (j + 1) b ?_ (by simpa using hget)
        simp only [List.length_cons] at hj ⊢
        omega
      have hlast2 : ∀ lb : List α, (h2 :: t2)[(h2 :: t2).length - 1]? = some lb →
          lb.length = base := by
        intro lb hget
        refine hlast lb ?_
        have heq : (hd :: h2 :: t2).length - 1 = ((h2 :: t2).length - 1) + 1 := by
          simp only [List.length_cons]
          omega
        rw [heq, List.getElem?_cons_succ]
        exact hget
      have h3 := ih (k + 1) hne hemp2 hlast2
      have hlen : k + 1 + (h2 :: t2).length = k + (hd :: h2 :: t2).length := by
        simp only [List.length_cons]
        omega
      rw [hlen] at h3
      simp only [weightSum, h0, List.length_nil, Nat.zero_mul, Nat.zero_add]
      exact h3

/-- The weights collected by the enumerate loop sum to the total held weight. -/
lemma weightedValues_map_snd_sum (base : Nat) :
    ∀ (L : List (List α)) (k : Nat),
      ((weightedValues base k L).map Prod.snd).sum = weightSum base k L := by
  intro L
  induction L with
  | nil => intro k; simp [weightedValues, weightSum]
  | cons hd tl ih =>
    intro k
    simp only [weightedValues, weightSum, List.map_append, List.sum_append, ih,
      List.map_map]
    congr 1
    have : (Prod.snd ∘ fun m : α => (m, base ^ k)) = fun _ : α => base ^ k := rfl
    rw [this, List.map_const', List.sum_replicate, smul_eq_mul]

/-- An all-empty scratch matrix yields no weighted pairs. -/
lemma weightedValues_eq_nil (base : Nat) :
    ∀ (L : List (List α)) (k : Nat),
      (∀ (j : Nat) (b : List α), L[j]? = some b → b = []) →
      weightedValues base k L = [] := by
  intro L
  induction L with
  | nil => intro k _; simp [weightedValues]
  | cons hd tl ih =>
    intro k h
    have h0 : hd = [] := h 0 hd (by simp)
    have htl : ∀ (j : Nat) (b : List α), tl[j]? = some b → b = [] := by
      intro j b hj
      exact h (j + 1) b (by simpa using hj)
    simp [weightedValues, h0, ih (k + 1) htl]

/-- With a positive base, zero total weight forces every batch to be empty. -/
lemma weightSum_eq_zero (base : Nat) (hb : 1 ≤ base) :
    ∀ (L : List (List α)) (k : Nat), weightSum base k L = 0 →
      ∀ (j : Nat) (b : List α), L[j]? = some b → b = [] := by
  intro L
  induction L with
  | nil => intro k _ j b h; simp at h
  | cons hd tl ih =>
    intro k hz j b h
    simp only [weightSum] at hz
    have hpow : 0 < base ^ k := Nat.pos_pow_of_pos _ hb
    have hhd : hd.length = 0 := by
      by_contra hc
      have h1 : 1 ≤ hd.length * base ^ k :=
        Nat.one_le_iff_ne_zero.mpr (Nat.mul_ne_zero hc (by omega))
      omega
    rw [hhd, Nat.zero_mul, Nat.zero_add] at hz
    cases j with
    | zero =>
      simp only [List.getElem?_cons_zero, Option.some.injEq] at h
      subst h
      exact List.length_eq_zero.mp hhd
    | succ j =>
      simp only [List.getElem?_cons_succ] at h
      exact ih (k + 1) hz j b h

end Lemmas

section WalkLemmas

variable {α : Type} [LinearOrder α]

/-- The accumulation loop returns a value as soon as the list is nonempty and
its total weight (from the running start) reaches the target. -/
lemma walkWeights_isSome (target : Nat) :
    ∀ (l : List (α × Nat)) (acc : Nat), l ≠ [] →
      target ≤ acc + (l.map Prod.snd).sum →
      ∃ m, walkWeights target acc l = some m := by
  intro l
  induction l with
  | nil => intro acc h; exact absurd rfl h
  | cons p rest ih =>
    intro acc _ hsum
    obtain ⟨m, w⟩ := p
    by_cases hc : target ≤ acc + w
    · exact ⟨m, by simp [walkWeights, hc]⟩
    · cases rest with
      | nil =>
        simp only [List.map_cons, List.map_nil, List.sum_cons, List.sum_nil,
          Nat.add_zero] at hsum
        omega
      | cons q r =>
        have hsum2 : target ≤ (acc + w) + ((q :: r).map Prod.snd).sum := by
          simp only [List.map_cons, List.sum_cons] at hsum ⊢
          omega
        obtain ⟨m2, hm2⟩ := ih (acc + w) (by simp) hsum2
        exact ⟨m2, by simpa [walkWeights, hc] using hm2⟩

/-- The accumulation loop of the code agrees with the specification reading:
zip the pairs with their running weight sums and pick the first pair whose
running sum reaches the target. -/
lemma walkWeights_eq_find (t : Nat) :
    ∀ (l : List (α × Nat)) (acc : Nat),
      walkWeights t acc l
        = ((l.zip (runningSums acc l)).find? (fun q => decide (t ≤ q.2))).map
            (fun q => q.1.1) := by
  intro l
  induction l with
  | nil => intro acc; simp [walkWeights, runningSums]
  | cons p rest ih =>
    intro acc
    obtain ⟨m, w⟩ := p
    by_cases hc : t ≤ acc + w
    · simp [walkWeights, runningSums, hc]
    · simp only [walkWeights, runningSums, List.zip_cons_cons, hc, if_false]
      rw [List.find?_cons_of_neg _ (by simpa using hc)]
      exact ih (acc + w)

end WalkLemmas

section CarryLemmas

variable {α : Type} [LinearOrder α]

/-- A successful optional index read is in bounds. -/
lemma getElem?_some_lt {β : Type} {l : List β} {j : Nat} {b : β} (h : l[j]? = some b) :
    j < l.length := by
  by_contra hc
  rw [List.getElem?_eq_none (by omega)] at h
  exact Option.noConfusion h

/-- Sorting a batch does not change its length. -/
lemma length_sortBatch (l : List α) : (sortBatch l).length = l.length :=
  List.length_insertionSort _ l

/-- Sorting a batch sorts it with respect to ≤. -/
lemma sorted_sortBatch (l : List α) : List.Sorted (fun a b => a ≤ b) (sortBatch l) :=
  List.sorted_insertionSort _ l

/-- Main specification of the ripple-carry loop, by induction on the
remaining iterations. Entering the loop at level `i` with all lower levels
empty, the current level filled to at most `base`, and all higher levels
strictly below `base`, the loop cannot panic, it preserves the matrix length
and the total held weight, and it ends either unlocked with every level
strictly below `base`, or locked with every level but the last empty and the
last level a sorted batch of exactly `base` values. -/
lemma rippleCarry_spec (base exponent : Nat) (hb : 1 ≤ base) :
    ∀ (fuel i : Nat) (scratch : List (List α)),
      scratch.length = exponent →
      fuel + i = exponent →
      (∀ (j : Nat) (b : List α), j < i → scratch[j]? = some b → b = []) →
      (∀ b : List α, scratch[i]? = some b → b.length ≤ base) →
      (∀ (j : Nat) (b : List α), i < j → scratch[j]? = some b → b.length < base) →
      ∃ out lk, rippleCarry base exponent fuel i scratch = some (out, lk) ∧
        out.length = exponent ∧
        weightSum base 0 out = weightSum base 0 scratch ∧
        (lk = false → ∀ (j : Nat) (b : List α), out[j]? = some b → b.length < base) ∧
        (lk = true →
          (∀ (j : Nat) (b : List α), j < exponent - 1 → out[j]? = some b → b = []) ∧
          ∃ lb, out[exponent - 1]? = some lb ∧ lb.length = base ∧
            List.Sorted (fun a b => a ≤ b) lb) := by
  intro fuel
  induction fuel with
  | zero =>
    intro i scratch hlen hfi hlow hcur hhigh
    refine ⟨scratch, false, rfl, hlen, rfl, ?_, by simp⟩
    intro _ j b hget
    have hj : j < scratch.length := getElem?_some_lt hget
    have hbj : b = [] := hlow j b (by omega) hget
    subst hbj
    simpa using hb
  | succ f ih =>
    intro i scratch hlen hfi hlow hcur hhigh
    have hi : i < scratch.length := by omega
    have hbatch : scratch[i]? = some scratch[i] := List.getElem?_eq_getElem hi
    by_cases hfull : (scratch[i]).length = base
    · by_cases hlast : i = exponent - 1
      · -- the full batch is the last level: sort it in place and lock
        refine ⟨scratch.set i (sortBatch scratch[i]), true, ?_, by simp [hlen], ?_, ?_, ?_⟩
        · simp only [rippleCarry, hbatch]
          rw [if_pos hfull, if_pos hlast]
        · have h1 := weightSum_set base scratch 0 i scratch[i] (sortBatch scratch[i]) hbatch
          rw [length_sortBatch] at h1
          exact Nat.add_right_cancel h1
        · intro hc; cases hc
        · intro _
          constructor
          · intro j b hjlt hget
            rw [List.getElem?_set_ne (by omega)] at hget
            exact hlow j b (by omega) hget
          · refine ⟨sortBatch scratch[i], ?_, ?_, sorted_sortBatch _⟩
            · rw [← hlast]
              exact List.getElem?_set_self hi
            · rw [length_sortBatch]
              exact hfull
      · -- carry the intermediate median into the next level
        have hmedlt : base / 2 < (sortBatch scratch[i]).length := by
          rw [length_sortBatch, hfull]
          exact Nat.div_lt_self (by omega) (by omega)
        have hmed : (sortBatch scratch[i])[base / 2]? =
            some ((sortBatch scratch[i])[base / 2]) :=
          List.getElem?_eq_getElem hmedlt
        have hi1 : i + 1 < scratch.length := by omega
        have hnb : (scratch.set i [])[i + 1]? = some scratch[i + 1] := by
          rw [List.getElem?_set_ne (by omega)]
          exact List.getElem?_eq_getElem hi1
        have hnblt : (scratch[i + 1]).length < base :=
          hhigh (i + 1) scratch[i + 1] (by omega) (List.getElem?_eq_getElem hi1)
        -- the three entry conditions of the recursive call
        have hlow2 : ∀ (j : Nat) (b : List α), j < i + 1 →
            ((scratch.set i []).set (i + 1)
              (scratch[i + 1] ++ [(sortBatch scratch[i])[base / 2]]))[j]? = some b →
            b = [] := by
          intro j b hj hget
          rcases Nat.lt_or_ge j i with hji | hji
          · rw [List.getElem?_set_ne (by omega), List.getElem?_set_ne (by omega)] at hget
            exact hlow j b hji hget
          · have hj2 : j = i := by omega
            subst hj2
            rw [List.getElem?_set_ne (by omega), List.getElem?_set_self hi] at hget
            exact (Option.some.injEq _ _ ▸ hget).symm
        have hcur2 : ∀ b : List α,
            ((scratch.set i []).set (i + 1)
              (scratch[i + 1] ++ [(sortBatch scratch[i])[base / 2]]))[i + 1]? = some b →
            b.length ≤ base := by
          intro b hget
          rw [List.getElem?_set_self (by simpa using hi1)] at hget
          have hbeq : b = scratch[i + 1] ++ [(sortBatch scratch[i])[base / 2]] :=
            (Option.some.injEq _ _ ▸ hget).symm
          subst hbeq
          simp only [List.length_append, List.length_cons, List.length_nil]
          omega
        have hhigh2 : ∀ (j : Nat) (b : List α), i + 1 < j →
            ((scratch.set i []).set (i + 1)
              (scratch[i + 1] ++ [(sortBatch scratch[i])[base / 2]]))[j]? = some b →
            b.length < base := by
          intro j b hj hget
          rw [List.getElem?_set_ne (by omega), List.getElem?_set_ne (by omega)] at hget
          exact hhigh j b (by omega) hget
        have ih2 := ih (i + 1)
          ((scratch.set i []).set (i + 1) (scratch[i + 1] ++ [(sortBatch scratch[i])[base / 2]]))
          (by simp [hlen]) (by omega) hlow2 hcur2 hhigh2
        obtain ⟨out, lk, hrun, hol, hws, hunl, hlkd⟩ := ih2
        refine ⟨out, lk, ?_, hol, ?_, hunl, hlkd⟩
        · simp only [rippleCarry, hbatch]
          rw [if_pos hfull, if_neg hlast]
          simp only [hmed, hnb]
          exact hrun
        · rw [hws]
          have e1 := weightSum_set base scratch 0 i scratch[i] [] hbatch
          have e2 := weightSum_set base (scratch.set i []) 0 (i + 1) scratch[i + 1]
            (scratch[i + 1] ++ [(sortBatch scratch[i])[base / 2]]) hnb
          simp only [List.length_nil, Nat.zero_mul, Nat.add_zero, List.length_append,
            List.length_cons, Nat.zero_add] at e1 e2
          -- e1 : WS (set i []) + batch.length * base ^ i = WS scratch
          -- e2 : WS s2 + nb.length * base ^ (i + 1) = WS (set i []) + (nb.length + 1) * base ^ (i + 1)
          rw [hfull] at e1
          have hpow : base * base ^ i = base ^ (i + 1) := by ring
          rw [Nat.succ_mul] at e2
          omega
    · -- the current batch is not full: the loop stops here, unlocked
      refine ⟨scratch, false, ?_, hlen, rfl, ?_, by simp⟩
      · simp only [rippleCarry, hbatch]
        rw [if_neg hfull]
      · intro _ j b hget
        rcases Nat.lt_trichotomy j i with hj | hj | hj
        · have : b = [] := hlow j b hj hget
          subst this
          simpa using hb
        · subst hj
          rw [hbatch] at hget
          have : b = scratch[j] := (Option.some.injEq _ _ ▸ hget).symm
          subst this
          have := hcur scratch[j] hbatch
          omega
        · exact hhigh j b hj hget

end CarryLemmas

section InvariantLemmas

variable {α : Type} [LinearOrder α]

/-- A freshly constructed block satisfies the invariant. -/
lemma BlockInv_new (base exponent : Nat) (hb : 1 ≤ base) :
    BlockInv base exponent (RemedianBlock.new base exponent : RemedianBlock α) := by
  refine ⟨rfl, rfl, by simp [RemedianBlock.new], ?_, ?_⟩
  · intro _
    constructor
    · intro j b hget
      simp only [RemedianBlock.new] at hget
      rw [List.getElem?_replicate] at hget
      by_cases hj : j < exponent
      · rw [if_pos hj] at hget
        have : b = [] := (Option.some.injEq _ _ ▸ hget).symm
        subst this
        simpa using hb
      · rw [if_neg hj] at hget
        exact Option.noConfusion hget
    · simp [RemedianBlock.new, weightSum_replicate]
  · intro hc
    simp only [RemedianBlock.new] at hc
    exact Bool.noConfusion hc

/-- One `add_sample_point` call from an invariant state: it never panics, it
preserves the invariant, it is the identity returning `false` on a locked
block, and otherwise it accepts the value and increments the count. -/
lemma add_sample_point_spec (base exponent : Nat) (hb : 1 ≤ base) (he : 1 ≤ exponent)
    (s : RemedianBlock α) (hinv : BlockInv base exponent s) (v : α) :
    ∃ (acc : Bool) (s' : RemedianBlock α), add_sample_point s v = some (acc, s') ∧
      BlockInv base exponent s' ∧
      (s.locked = true → acc = false ∧ s' = s) ∧
      (s.locked = false → acc = true ∧ s'.count = s.count + 1) := by
  obtain ⟨hbase, hexp, hlen, hunl, hlk⟩ := hinv
  cases hL : s.locked with
  | true =>
    refine ⟨false, s, by simp [add_sample_point, hL], ⟨hbase, hexp, hlen, ?_, hlk⟩, ?_, ?_⟩
    · intro hc; simp [hL] at hc
    · intro _; exact ⟨rfl, rfl⟩
    · intro hc; simp [hL] at hc
  | false =>
    obtain ⟨hsmall, hws⟩ := hunl hL
    have h0 : 0 < s.remedian_scratch.length := by omega
    have hb0 : s.remedian_scratch[0]? = some s.remedian_scratch[0] :=
      List.getElem?_eq_getElem h0
    -- entry conditions for the carry loop on the matrix with v pushed to level 0
    have hlow1 : ∀ (j : Nat) (b : List α), j < 0 →
        (s.remedian_scratch.set 0 (s.remedian_scratch[0] ++ [v]))[j]? = some b → b = [] := by
      intro j b hj
      omega
    have hcur1 : ∀ b : List α,
        (s.remedian_scratch.set 0 (s.remedian_scratch[0] ++ [v]))[0]? = some b →
        b.length ≤ base := by
      intro b hget
      rw [List.getElem?_set_self h0] at hget
      have hbeq : b = s.remedian_scratch[0] ++ [v] := (Option.some.injEq _ _ ▸ hget).symm
      subst hbeq
      have := hsmall 0 s.remedian_scratch[0] hb0
      simp only [List.length_append, List.length_cons, List.length_nil, Nat.zero_add]
      omega
    have hhigh1 : ∀ (j : Nat) (b : List α), 0 < j →
        (s.remedian_scratch.set 0 (s.remedian_scratch[0] ++ [v]))[j]? = some b →
        b.length < base := by
      intro j b hj hget
      rw [List.getElem?_set_ne (by omega)] at hget
      exact hsmall j b hget
    have hrc := rippleCarry_spec base exponent hb exponent 0
      (s.remedian_scratch.set 0 (s.remedian_scratch[0] ++ [v]))
      (by simp [hlen]) (by omega) hlow1 hcur1 hhigh1
    obtain ⟨out, lk, hrun, hol, hws2, hunl2, hlkd2⟩ := hrc
    -- total weight after the push is the old weight plus one
    have hpush := weightSum_set base s.remedian_scratch 0 0 s.remedian_scratch[0]
      (s.remedian_scratch[0] ++ [v]) hb0
    simp only [List.length_append, List.length_cons, List.length_nil, Nat.zero_add,
      Nat.add_zero, pow_zero, Nat.mul_one, Nat.succ_mul] at hpush
    have hwq : weightSum base 0 (s.remedian_scratch.set 0 (s.remedian_scratch[0] ++ [v]))
        = s.count + 1 := by
      omega
    refine ⟨true, { s with count := s.count + 1, remedian_scratch := out, locked := lk },
      ?_, ⟨hbase, hexp, hol, ?_, ?_⟩, ?_, ?_⟩
    · simp only [add_sample_point, hL, Bool.false_eq_true, if_false, hb0, hbase, hexp, hrun]
    · intro hulk
      simp only at hulk
      constructor
      · intro j b hget
        exact hunl2 hulk j b hget
      · simp only
        rw [hws2, hwq]
    · intro hlkk
      simp only at hlkk
      obtain ⟨hempty, lb, hlb, hlbl, hlbs⟩ := hlkd2 hlkk
      refine ⟨hempty, ⟨lb, hlb, hlbl, hlbs⟩, ?_⟩
      simp only
      have hshape := weightSum_shape base out 0 (by omega)
        (by rw [hol]; exact hempty)
        (by rw [hol]; intro lb2 hget2; rw [hlb] at hget2
            have : lb2 = lb := (Option.some.injEq _ _ ▸ hget2).symm
            rw [this, hlbl])
      rw [hol, Nat.zero_add] at hshape
      rw [hws2, hwq] at hshape
      omega
    · intro hc; simp [hL] at hc
    · intro _; exact ⟨rfl, rfl⟩

/-- Every reachable state of a validly constructed block satisfies the
invariant. -/
lemma reachable_inv (base exponent : Nat) (hb : 1 ≤ base) (he : 1 ≤ exponent)
    {s : RemedianBlock α} (hr : ReachableBlock base exponent s) :
    BlockInv base exponent s := by
  induction hr with
  | new => exact BlockInv_new base exponent hb
  | add hs hstep ih =>
    rename_i s0 s1 v acc
    obtain ⟨acc2, s2, hrun, hinv2, _, _⟩ := add_sample_point_spec base exponent hb he s0 ih v
    rw [hstep] at hrun
    have hpair : (acc, s1) = (acc2, s2) := Option.some.inj hrun
    have hs12 : s1 = s2 := congrArg Prod.snd hpair
    rw [hs12]
    exact hinv2

/-- While unlocked, the count stays strictly below the capacity. -/
lemma BlockInv_count_lt (base exponent : Nat) (hb : 1 ≤ base)
    {s : RemedianBlock α} (hinv : BlockInv base exponent s) (hL : s.locked = false) :
    s.count < base ^ exponent := by
  obtain ⟨_, _, hlen, hunl, _⟩ := hinv
  obtain ⟨hsmall, hws⟩ := hunl hL
  have := weightSum_lt base hb s.remedian_scratch 0 hsmall
  rw [hws, pow_zero, Nat.zero_add, hlen] at this
  omega

/-- A block in an invariant state is locked exactly when its count has
reached the capacity. -/
lemma BlockInv_locked_iff (base exponent : Nat) (hb : 1 ≤ base)
    {s : RemedianBlock α} (hinv : BlockInv base exponent s) :
    s.locked = true ↔ s.count = base ^ exponent := by
  constructor
  · intro hL
    exact (hinv.2.2.2.2 hL).2.2
  · intro hc
    cases hL : s.locked with
    | true => rfl
    | false =>
      have := BlockInv_count_lt base exponent hb hinv hL
      omega

/-- Feeding a list that fits in the remaining capacity succeeds and raises
the count by exactly the length of the list. -/
lemma feed_spec (base exponent : Nat) (hb : 1 ≤ base) (he : 1 ≤ exponent) :
    ∀ (vs : List α) (s : RemedianBlock α), BlockInv base exponent s → s.locked = false →
      s.count + vs.length ≤ base ^ exponent →
      ∃ s', feed s vs = some s' ∧ BlockInv base exponent s' ∧
        s'.count = s.count + vs.length := by
  intro vs
  induction vs with
  | nil => intro s hinv _ _; exact ⟨s, rfl, hinv, by simp⟩
  | cons v rest ih =>
    intro s hinv hL hcap
    obtain ⟨acc, s1, hrun, hinv1, _, hunl⟩ := add_sample_point_spec base exponent hb he s hinv v
    obtain ⟨hacc, hcount1⟩ := hunl hL
    cases hL1 : s1.locked with
    | false =>
      have hcap1 : s1.count + rest.length ≤ base ^ exponent := by
        rw [hcount1]
        simp only [List.length_cons] at hcap
        omega
      obtain ⟨s2, hfeed, hinv2, hcount2⟩ := ih s1 hinv1 hL1 hcap1
      refine ⟨s2, ?_, hinv2, ?_⟩
      · simp only [feed, hrun, hacc]
        exact hfeed
      · rw [hcount2, hcount1]
        simp only [List.length_cons]
        omega
    | true =>
      have hfull : s1.count = base ^ exponent :=
        (BlockInv_locked_iff base exponent hb hinv1).mp hL1
      have hrest : rest.length = 0 := by
        simp only [List.length_cons] at hcap
        omega
      have hrnil : rest = [] := List.length_eq_zero.mp hrest
      subst hrnil
      refine ⟨s1, ?_, hinv1, ?_⟩
      · simp only [feed, hrun]
      · simp only [List.length_cons, List.length_nil]
        omega

end InvariantLemmas

section MedianLemmas

variable {α : Type} [LinearOrder α]

/-- Sorting the weighted pairs permutes them. -/
lemma sortPairs_perm (l : List (α × Nat)) : List.Perm (sortPairs l) l :=
  List.perm_insertionSort _ l

/-- An empty scratch suffix of empty batches contributes no weighted pairs. -/
lemma weightedValues_replicate (base : Nat) :
    ∀ (n k : Nat), weightedValues base k (List.replicate n ([] : List α)) = [] := by
  intro n
  induction n with
  | zero => intro k; simp [weightedValues]
  | succ n ih => intro k; simp [List.replicate_succ, weightedValues, ih]

/-- On an unlocked block, `median` is the weighted walk of the code. -/
lemma median_unlocked_eval (s : RemedianBlock α) (hL : s.locked = false) :
    median s = some (walkWeights (s.count / 2) 0
      (sortPairs (weightedValues s.remedian_base 0 s.remedian_scratch))) := by
  simp [median, hL]

/-- On an unlocked invariant state holding data, the weighted walk always
produces a value: the total weight of the pairs equals the count, which
reaches the `count / 2` target. -/
lemma median_unlocked_isSome (base exponent : Nat) (hb : 1 ≤ base)
    {s : RemedianBlock α} (hinv : BlockInv base exponent s) (hL : s.locked = false)
    (hc : 0 < s.count) :
    ∃ m, median s = some (some m) ∧
      walkWeights (s.count / 2) 0
        (sortPairs (weightedValues base 0 s.remedian_scratch)) = some m := by
  obtain ⟨hbase, hexp, hlen, hunl, _⟩ := hinv
  obtain ⟨hsmall, hws⟩ := hunl hL
  have hperm : List.Perm ((sortPairs (weightedValues base 0 s.remedian_scratch)).map Prod.snd)
      ((weightedValues base 0 s.remedian_scratch).map Prod.snd) :=
    (sortPairs_perm (weightedValues base 0 s.remedian_scratch)).map _
  have hsum : ((sortPairs (weightedValues base 0 s.remedian_scratch)).map Prod.snd).sum
      = s.count := by
    rw [hperm.sum_eq, weightedValues_map_snd_sum, hws]
  have hne : sortPairs (weightedValues base 0 s.remedian_scratch) ≠ [] := by
    intro hnil
    rw [hnil] at hsum
    simp only [List.map_nil, List.sum_nil] at hsum
    omega
  obtain ⟨m, hm⟩ := walkWeights_isSome (s.count / 2)
    (sortPairs (weightedValues base 0 s.remedian_scratch)) 0 hne (by rw [hsum]; omega)
  refine ⟨m, ?_, hm⟩
  rw [median_unlocked_eval s hL, hbase, hm]

/-- On an unlocked invariant state with no data, every batch is empty and the
weighted walk returns no value. -/
lemma median_unlocked_none (base exponent : Nat) (hb : 1 ≤ base)
    {s : RemedianBlock α} (hinv : BlockInv base exponent s) (hL : s.locked = false)
    (hc : s.count = 0) :
    median s = some none := by
  obtain ⟨hbase, hexp, hlen, hunl, _⟩ := hinv
  obtain ⟨hsmall, hws⟩ := hunl hL
  have hzero : weightSum base 0 s.remedian_scratch = 0 := by rw [hws, hc]
  have hnil : weightedValues base 0 s.remedian_scratch = [] :=
    weightedValues_eq_nil base s.remedian_scratch 0
      (weightSum_eq_zero base hb s.remedian_scratch 0 hzero)
  rw [median_unlocked_eval s hL, hbase, hnil]
  rfl

/-- On a locked invariant state, `median` returns the middle element of the
sorted, full last batch. -/
lemma median_locked_eval (base exponent : Nat) (hb : 1 ≤ base) (he : 1 ≤ exponent)
    {s : RemedianBlock α} (hinv : BlockInv base exponent s) (hL : s.locked = true) :
    ∃ lb m, s.remedian_scratch[exponent - 1]? = some lb ∧ lb.length = base ∧
      List.Sorted (fun a b => a ≤ b) lb ∧ lb[base / 2]? = some m ∧
      median s = some (some m) := by
  obtain ⟨hbase, hexp, hlen, _, hlkd⟩ := hinv
  obtain ⟨hempty, ⟨lb, hlb, hlbl, hlbs⟩, hcount⟩ := hlkd hL
  have hm2 : base / 2 < lb.length := by
    rw [hlbl]
    exact Nat.div_lt_self (by omega) (by omega)
  have hmed : lb[base / 2]? = some lb[base / 2] := List.getElem?_eq_getElem hm2
  refine ⟨lb, lb[base / 2], hlb, hlbl, hlbs, hmed, ?_⟩
  simp only [median, hL, if_true, hexp, hbase, hlb, hmed]

end MedianLemmas

/-- The decimal-literal dataset and its explicit-fraction form are the same
list of rationals. -/
lemma c8data_eq : c8data = c8dataExplicit := by
  simp only [c8data, c8dataExplicit, List.cons.injEq, and_true]
  refine ⟨?_, ?_, ?_, ?_, ?_, ?_, ?_, ?_, ?_, ?_, ?_, ?_, ?_, ?_, ?_⟩
  all_goals apply Rat.ext
  all_goals norm_num

section SumBound

variable {α : Type} [LinearOrder α]

/-- A list of batches each of length at most `base` holds at most
`base * number of batches` elements in total. -/
lemma sum_map_length_le (base : Nat) :
    ∀ L : List (List α), (∀ b ∈ L, b.length ≤ base) →
      (L.map List.length).sum ≤ base * L.length := by
  intro L
  induction L with
  | nil => intro _; simp
  | cons hd tl ih =>
    intro h
    have h0 : hd.length ≤ base := h hd (by simp)
    have htl := ih (fun b hbmem => h b (by simp [hbmem]))
    simp only [List.map_cons, List.sum_cons, List.length_cons, Nat.mul_succ]
    omega

end SumBound

section ClaimTheorems

variable {α : Type} [LinearOrder α]

/-- C1: for every base ≥ 1 and exponent ≥ 1, feeding exactly
`base ^ exponent` values one at a time into a freshly constructed block makes
`locked` true with `count = base ^ exponent`, while after only
`base ^ exponent - 1` values the block is still unlocked. -/
theorem capacity_invariant (base exponent : Nat) (hb : 1 ≤ base) (he : 1 ≤ exponent)
    (vs ws : List α) (hvs : vs.length = base ^ exponent)
    (hws : ws.length = base ^ exponent - 1) :
    (∃ s, feed (RemedianBlock.new base exponent) vs = some s ∧ s.locked = true ∧
      s.count = base ^ exponent) ∧
    (∃ s, feed (RemedianBlock.new base exponent) ws = some s ∧ s.locked = false ∧
      s.count = base ^ exponent - 1) := by
  have hpow : 0 < base ^ exponent := Nat.pos_pow_of_pos _ (by omega)
  constructor
  · obtain ⟨s1, hfeed, hinv, hcount⟩ := feed_spec base exponent hb he vs
      (RemedianBlock.new base exponent) (BlockInv_new base exponent hb) rfl
      (by simp [RemedianBlock.new, hvs])
    have hc1 : s1.count = base ^ exponent := by
      simp only [RemedianBlock.new] at hcount
      omega
    exact ⟨s1, hfeed, (BlockInv_locked_iff base exponent hb hinv).mpr hc1, hc1⟩
  · obtain ⟨s2, hfeed, hinv, hcount⟩ := feed_spec base exponent hb he ws
      (RemedianBlock.new base exponent) (BlockInv_new base exponent hb) rfl
      (by simp [RemedianBlock.new, hws])
    have hc2 : s2.count = base ^ exponent - 1 := by
      simp only [RemedianBlock.new] at hcount
      omega
    refine ⟨s2, hfeed, ?_, hc2⟩
    cases hL : s2.locked with
    | false => rfl
    | true =>
      have := (BlockInv_locked_iff base exponent hb hinv).mp hL
      omega

/-- C1 witness: base 2, exponent 1 over ℕ; two values lock the block at
count 2 and a single value leaves it unlocked. -/
theorem capacity_invariant_witness :
    (∃ s : RemedianBlock ℕ, feed (RemedianBlock.new 2 1) [5, 3] = some s ∧
      s.locked = true ∧ s.count = 2 ^ 1) ∧
    (∃ s : RemedianBlock ℕ, feed (RemedianBlock.new 2 1) [5] = some s ∧
      s.locked = false ∧ s.count = 2 ^ 1 - 1) :=
  capacity_invariant 2 1 (by decide) (by decide) [5, 3] [5] (by decide) (by decide)

/-- C2: on any locked block state, `add_sample_point` returns `false` and
leaves the whole state unchanged: the new state is the old one, so `count`,
`median`, `locked` and every level of the scratch matrix are unchanged. -/
theorem add_sample_point_locked_noop (s : RemedianBlock α) (v : α) (hL : s.locked = true) :
    ∃ s', add_sample_point s v = some (false, s') ∧ s' = s ∧ s'.count = s.count ∧
      median s' = median s ∧ s'.locked = s.locked ∧
      s'.remedian_scratch = s.remedian_scratch :=
  ⟨s, by simp [add_sample_point, hL], rfl, rfl, rfl, rfl, rfl⟩

/-- C2 witness: a locked block over ℕ ignores the value 9 and is returned
unchanged. -/
theorem add_sample_point_locked_noop_witness :
    ∃ s', add_sample_point (⟨3, 2, 99, [[1], [2, 3]], true⟩ : RemedianBlock ℕ) 9
        = some (false, s') ∧
      s' = (⟨3, 2, 99, [[1], [2, 3]], true⟩ : RemedianBlock ℕ) ∧ s'.count = 99 ∧
      median s' = median (⟨3, 2, 99, [[1], [2, 3]], true⟩ : RemedianBlock ℕ) ∧
      s'.locked = true ∧ s'.remedian_scratch = [[1], [2, 3]] :=
  add_sample_point_locked_noop ⟨3, 2, 99, [[1], [2, 3]], true⟩ 9 rfl

/-- C3: on every reachable unlocked state holding data, `median` returns
exactly the value of the weighted-median algorithm as the specification
states it, and that algorithm does produce a value. -/
theorem median_unlocked_eq_weightedMedianSpec (base exponent : Nat) (hb : 1 ≤ base)
    (he : 1 ≤ exponent) (s : RemedianBlock α) (hr : ReachableBlock base exponent s)
    (hL : s.locked = false) (hc : 0 < s.count) :
    median s = some (weightedMedianSpec base s.count s.remedian_scratch) ∧
      ∃ m, weightedMedianSpec base s.count s.remedian_scratch = some m := by
  have hinv := reachable_inv base exponent hb he hr
  have hbase := hinv.1
  have heq : weightedMedianSpec base s.count s.remedian_scratch
      = walkWeights (s.count / 2) 0
          (sortPairs (weightedValues base 0 s.remedian_scratch)) := by
    simp only [weightedMedianSpec]
    rw [← walkWeights_eq_find]
  constructor
  · rw [median_unlocked_eval s hL, hbase, heq]
  · obtain ⟨m, _, hm⟩ := median_unlocked_isSome base exponent hb hinv hL hc
    exact ⟨m, by rw [heq, hm]⟩

/-- C3 witness: the reachable state of a (3, 2) block after ingesting the
single value 5. -/
theorem median_unlocked_eq_weightedMedianSpec_witness :
    median (⟨3, 2, 1, [[5], []], false⟩ : RemedianBlock ℕ)
        = some (weightedMedianSpec 3 1 [[5], []]) ∧
      ∃ m, weightedMedianSpec 3 1 [[5], []] = some m := by
  have hstep : add_sample_point (RemedianBlock.new 3 2 : RemedianBlock ℕ) 5
      = some (true, ⟨3, 2, 1, [[5], []], false⟩) := by decide
  exact median_unlocked_eq_weightedMedianSpec 3 2 (by decide) (by decide) _
    (ReachableBlock.add ReachableBlock.new hstep) rfl (by decide)

/-- C4: on every reachable locked state, the last level is a sorted batch of
exactly `base` values and `median` returns its element at index `base / 2`. -/
theorem median_locked_last_batch (base exponent : Nat) (hb : 1 ≤ base) (he : 1 ≤ exponent)
    (s : RemedianBlock α) (hr : ReachableBlock base exponent s) (hL : s.locked = true) :
    ∃ lb m, s.remedian_scratch[exponent - 1]? = some lb ∧ lb.length = base ∧
      List.Sorted (fun a b => a ≤ b) lb ∧ lb[base / 2]? = some m ∧
      median s = some (some m) :=
  median_locked_eval base exponent hb he (reachable_inv base exponent hb he hr) hL

/-- C4 witness: the reachable locked state of a (1, 1) block after ingesting
the single value 5. -/
theorem median_locked_last_batch_witness :
    ∃ lb m, (⟨1, 1, 1, [[5]], true⟩ : RemedianBlock ℕ).remedian_scratch[1 - 1]? = some lb ∧
      lb.length = 1 ∧ List.Sorted (fun a b => a ≤ b) lb ∧ lb[1 / 2]? = some m ∧
      median (⟨1, 1, 1, [[5]], true⟩ : RemedianBlock ℕ) = some (some m) := by
  have hstep : add_sample_point (RemedianBlock.new 1 1 : RemedianBlock ℕ) 5
      = some (true, ⟨1, 1, 1, [[5]], true⟩) := by decide
  exact median_locked_last_batch 1 1 (by decide) (by decide) _
    (ReachableBlock.add ReachableBlock.new hstep) rfl

/-- C5: in every reachable state every level holds at most `base` elements,
so the whole scratch matrix holds at most `base * exponent` elements. -/
theorem scratch_memory_bound (base exponent : Nat) (hb : 1 ≤ base) (he : 1 ≤ exponent)
    (s : RemedianBlock α) (hr : ReachableBlock base exponent s) :
    (∀ b ∈ s.remedian_scratch, b.length ≤ base) ∧
    (s.remedian_scratch.map List.length).sum ≤ base * exponent := by
  have hinv := reachable_inv base exponent hb he hr
  obtain ⟨hbase, hexp, hlen, hunl, hlkd⟩ := hinv
  have hmem : ∀ b ∈ s.remedian_scratch, b.length ≤ base := by
    intro b hbmem
    obtain ⟨j, hj, hget⟩ := List.getElem_of_mem hbmem
    have hget2 : s.remedian_scratch[j]? = some b := by
      rw [List.getElem?_eq_getElem hj, hget]
    cases hL : s.locked with
    | false => exact le_of_lt ((hunl hL).1 j b hget2)
    | true =>
      obtain ⟨hempty, ⟨lb, hlb, hlbl, _⟩, _⟩ := hlkd hL
      by_cases hj2 : j < exponent - 1
      · rw [hempty j b hj2 hget2]
        simp only [List.length_nil]
        omega
      · have hj3 : j = exponent - 1 := by
          rw [hlen] at hj
          omega
        subst hj3
        rw [hlb] at hget2
        have hbeq : lb = b := Option.some.inj hget2
        rw [← hbeq, hlbl]
  refine ⟨hmem, ?_⟩
  have := sum_map_length_le base s.remedian_scratch hmem
  rw [hlen] at this
  exact this

/-- C5 witness: the reachable state of a (2, 2) block after ingesting 7. -/
theorem scratch_memory_bound_witness :
    (∀ b ∈ (⟨2, 2, 1, [[7], []], false⟩ : RemedianBlock ℕ).remedian_scratch,
      b.length ≤ 2) ∧
    ((⟨2, 2, 1, [[7], []], false⟩ : RemedianBlock ℕ).remedian_scratch.map
      List.length).sum ≤ 2 * 2 := by
  have hstep : add_sample_point (RemedianBlock.new 2 2 : RemedianBlock ℕ) 7
      = some (true, ⟨2, 2, 1, [[7], []], false⟩) := by decide
  exact scratch_memory_bound 2 2 (by decide) (by decide) _
    (ReachableBlock.add ReachableBlock.new hstep)

/-- C6: on every reachable state, `median` never panics, and it returns the
absence value exactly when no data has ever been ingested. -/
theorem median_none_iff_count_zero (base exponent : Nat) (hb : 1 ≤ base) (he : 1 ≤ exponent)
    (s : RemedianBlock α) (hr : ReachableBlock base exponent s) :
    ∃ o, median s = some o ∧ (o = none ↔ s.count = 0) := by
  have hinv := reachable_inv base exponent hb he hr
  cases hL : s.locked with
  | true =>
    obtain ⟨lb, m, _, _, _, _, hmed⟩ := median_locked_eval base exponent hb he hinv hL
    refine ⟨some m, hmed, ?_⟩
    have hcount := (hinv.2.2.2.2 hL).2.2
    have hpos : 0 < base ^ exponent := Nat.pos_pow_of_pos _ (by omega)
    constructor
    · intro hc
      exact Option.noConfusion hc
    · intro hc
      rw [hc] at hcount
      omega
  | false =>
    rcases Nat.eq_zero_or_pos s.count with hc | hc
    · exact ⟨none, median_unlocked_none base exponent hb hinv hL hc, by simp [hc]⟩
    · obtain ⟨m, hmed, _⟩ := median_unlocked_isSome base exponent hb hinv hL hc
      refine ⟨some m, hmed, ?_, ?_⟩
      · intro h
        exact Option.noConfusion h
      · intro h
        omega

/-- C6 witness: a freshly constructed (3, 2) block over ℕ. -/
theorem median_none_iff_count_zero_witness :
    ∃ o, median (RemedianBlock.new 3 2 : RemedianBlock ℕ) = some o ∧
      (o = none ↔ (RemedianBlock.new 3 2 : RemedianBlock ℕ).count = 0) :=
  median_none_iff_count_zero 3 2 (by decide) (by decide) _ ReachableBlock.new

/-- C9: on every reachable unlocked state the held weight, the sum over the
levels of level length times `base ^ level`, equals the ingested count. -/
theorem weight_conservation (base exponent : Nat) (hb : 1 ≤ base) (he : 1 ≤ exponent)
    (s : RemedianBlock α) (hr : ReachableBlock base exponent s) (hL : s.locked = false) :
    weightSum base 0 s.remedian_scratch = s.count :=
  ((reachable_inv base exponent hb he hr).2.2.2.1 hL).2

/-- C9 witness: the reachable state of a (2, 2) block after ingesting 4. -/
theorem weight_conservation_witness :
    weightSum 2 0 (⟨2, 2, 1, [[4], []], false⟩ : RemedianBlock ℕ).remedian_scratch
      = (⟨2, 2, 1, [[4], []], false⟩ : RemedianBlock ℕ).count := by
  have hstep : add_sample_point (RemedianBlock.new 2 2 : RemedianBlock ℕ) 4
      = some (true, ⟨2, 2, 1, [[4], []], false⟩) := by decide
  exact weight_conservation 2 2 (by decide) (by decide) _
    (ReachableBlock.add ReachableBlock.new hstep) rfl

/-- C10: for a validly constructed block all indexing of `add_sample_point`
and `median` is in bounds on every reachable state, modelled by the absence
of the `none` panic marker, whereas a block constructed with exponent 0 makes
the very first `add_sample_point` index out of bounds. -/
theorem index_safety (base exponent : Nat) (hb : 1 ≤ base) (he : 1 ≤ exponent)
    (s : RemedianBlock α) (hr : ReachableBlock base exponent s) (v : α)
    (base0 : Nat) (w : α) :
    (add_sample_point s v).isSome = true ∧ (median s).isSome = true ∧
      add_sample_point (RemedianBlock.new base0 0 : RemedianBlock α) w = none := by
  have hinv := reachable_inv base exponent hb he hr
  refine ⟨?_, ?_, ?_⟩
  · obtain ⟨acc, s2, hrun, _, _, _⟩ := add_sample_point_spec base exponent hb he s hinv v
    rw [hrun]
    rfl
  · cases hL : s.locked with
    | false =>
      rw [median_unlocked_eval s hL]
      rfl
    | true =>
      obtain ⟨lb, m, _, _, _, _, hmed⟩ := median_locked_eval base exponent hb he hinv hL
      rw [hmed]
      rfl
  · simp [add_sample_point, RemedianBlock.new]

/-- C10 witness: a fresh (2, 1) block over ℕ is safe, and a block with
exponent 0 panics on its first ingestion. -/
theorem index_safety_witness :
    (add_sample_point (RemedianBlock.new 2 1 : RemedianBlock ℕ) 6).isSome = true ∧
    (median (RemedianBlock.new 2 1 : RemedianBlock ℕ)).isSome = true ∧
      add_sample_point (RemedianBlock.new 7 0 : RemedianBlock ℕ) 3 = none :=
  index_safety 2 1 (by decide) (by decide) _ ReachableBlock.new 6 7 3

end ClaimTheorems

section SingletonClaim

variable {α : Type} [LinearOrder α]

/-- C7: for every base > 1 and exponent ≥ 1, ingesting a single value `v`
into a fresh block is accepted, and then `median` returns exactly `v`,
`median_or_default` returns `v`, the count is 1, and the block is unlocked. -/
theorem singleton_law (base exponent : Nat) [Inhabited α] (hb : 2 ≤ base)
    (he : 1 ≤ exponent) (v : α) :
    ∃ s', add_sample_point (RemedianBlock.new base exponent : RemedianBlock α) v
        = some (true, s') ∧
      median s' = some (some v) ∧ median_or_default s' = some v ∧
      s'.count = 1 ∧ s'.locked = false := by
  obtain ⟨e, rfl⟩ : ∃ e, exponent = e + 1 := ⟨exponent - 1, by omega⟩
  have hmed : median (⟨base, e + 1, 1, [v] :: List.replicate e [], false⟩ : RemedianBlock α)
      = some (some v) := by
    have hwv : weightedValues base 1 (List.replicate e ([] : List α)) = [] :=
      weightedValues_replicate base e 1
    simp [median, weightedValues, hwv, sortPairs, walkWeights]
  refine ⟨⟨base, e + 1, 1, [v] :: List.replicate e [], false⟩, ?_, hmed,
    by simp [median_or_default, hmed], rfl, rfl⟩
  have hne : ¬((1 : Nat) = base) := by omega
  simp only [add_sample_point, RemedianBlock.new, Bool.false_eq_true, if_false,
    List.replicate_succ, List.getElem?_cons_zero, List.set_cons_zero, List.nil_append,
    rippleCarry, List.length_cons, List.length_nil, Nat.zero_add, if_neg hne]

/-- C7 witness: value 42 into a fresh (3, 2) block over ℕ. -/
theorem singleton_law_witness :
    ∃ s', add_sample_point (RemedianBlock.new 3 2 : RemedianBlock ℕ) 42
        = some (true, s') ∧
      median s' = some (some 42) ∧ median_or_default s' = some 42 ∧
      s'.count = 1 ∧ s'.locked = false :=
  singleton_law 3 2 (by decide) (by decide) 42

end SingletonClaim

set_option maxRecDepth 10000 in
/-- C8: feeding the 15-value dataset into a (5, 4) block succeeds, the count
after each of the 15 ingestions equals the number of values fed so far, and
the final `median` is a value within the tolerance 3 of 44.5 (it is in fact
exactly 44.5 = 89/2). -/
theorem concrete_scenario_15 :
    ∃ s : RemedianBlock ℚ, feed (RemedianBlock.new 5 4) c8data = some s ∧
      s.count = 15 ∧
      (∃ m, median s = some (some m) ∧ |m - 44.5| < 3) ∧
      (∀ k, k ≤ 15 →
        (feed (RemedianBlock.new 5 4 : RemedianBlock ℚ) (c8data.take k)).map
          RemedianBlock.count = some k) := by
  refine ⟨⟨5, 4, 15,
    [[], [⟨43, 2, by decide, by decide⟩, ⟨641, 10, by decide, by decide⟩,
      ⟨89, 2, by decide, by decide⟩], [], []], false⟩, ?_, rfl, ?_, ?_⟩
  · rw [c8data_eq]
    decide
  · refine ⟨⟨89, 2, by decide, by decide⟩, ?_, ?_⟩
    · decide
    · have h45 : (⟨89, 2, by decide, by decide⟩ : ℚ) = 44.5 := by
        apply Rat.ext <;> norm_num
      rw [h45]
      norm_num
  · simp only [c8data_eq]
    decide
